import Mathlib

/-!
Shallow embedding of `scripts/audit_mount_calls.py`.

File text is modelled as `List Char`. Python's arbitrary-precision integer
arithmetic is modelled with `Int` where the value may go negative (the
`depth` counter of `parse_call`) and with `Nat` for indices and counts.
The filesystem is modelled by the list of paths that `root.rglob("*.swift")`
yields (in unspecified traversal order) together with a read function
`contents : String → List Char` standing for `Path.read_text`.
-/

namespace Audit

/-- Contribution of one character to the parenthesis depth counter of
`parse_call`: `'('` counts +1, `')'` counts -1, all others 0. -/
def parenDelta (c : Char) : Int :=
  if c = '(' then 1 else if c = ')' then -1 else 0

/-- Net parenthesis depth of a character list (sum of `parenDelta`). -/
def depthSum (l : List Char) : Int :=
  (l.map parenDelta).sum

/-- The loop of `parse_call`, running over the suffix of the text that starts
at `start_idx`, carrying the current `depth` (a Python `int`, hence `Int`:
it can go negative on a stray `')'`).  Returns the extracted characters:
on `'('` depth is incremented; on `')'` depth is decremented and if it
reaches exactly 0 the closing parenthesis is the last extracted character;
if the text ends first, everything up to the end is returned. -/
def parse_call_aux : List Char → Int → List Char
  | [], _ => []
  | c :: rest, depth =>
    if c = '(' then c :: parse_call_aux rest (depth + 1)
    else if c = ')' then
      if depth - 1 = 0 then [c]
      else c :: parse_call_aux rest (depth - 1)
    else c :: parse_call_aux rest depth

/-- `parse_call(text, start_idx)`: returns `(call_text, end_idx)`.
The Python loop returns `(text[start_idx : i + 1], i + 1)` when depth reaches
0 at position `i`, and `(text[start_idx:], len(text))` when the text ends
first; in both cases the end index equals `start_idx + len(call_text)`
clamped to `len(text)` exactly as written below. -/
def parse_call (text : List Char) (start_idx : Nat) : List Char × Nat :=
  let s := parse_call_aux (text.drop start_idx) 0
  if s.length = text.length - start_idx then (s, text.length)
  else (s, start_idx + s.length)

/-- The fixed literal prefix of `CALL_PATTERN`: receiver name plus the
member-access dot, `mountManager.`. -/
def receiverDot : List Char := "mountManager.".toList

/-- The watched method names, in the alternation order of `CALL_PATTERN`:
`(connect|disconnect|refreshStatus|forceStopProcesses|testConnection)`. -/
def methods : List (List Char) :=
  ["connect".toList, "disconnect".toList, "refreshStatus".toList,
   "forceStopProcesses".toList, "testConnection".toList]

/-- Python regex `\s` (ASCII whitespace class). -/
def isSpaceChar (c : Char) : Bool :=
  c = ' ' || c = '\t' || c = '\n' || c = '\r' || c = '\x0b' || c = '\x0c'

/-- Match `\s*\(` at the head of `l`; `some k` gives the number of consumed
characters (the run of whitespace plus the opening parenthesis).  Since `'('`
is not whitespace, the greedy `\s*` is deterministic. -/
def matchSpacesParen : List Char → Option Nat
  | [] => none
  | c :: rest =>
    if c = '(' then some 1
    else if isSpaceChar c then (matchSpacesParen rest).map (· + 1)
    else none

/-- Try the alternation branches of `CALL_PATTERN` in order (regex
backtracking: a branch whose literal matches but whose `\s*\(` tail fails
falls through to the next branch).  `rest` is the text right after the
`mountManager.` prefix; `some (m, k)` gives the matched method name and the
number of characters consumed from `rest`. -/
def tryMethods : List (List Char) → List Char → Option (List Char × Nat)
  | [], _ => none
  | m :: ms, rest =>
    if m.isPrefixOf rest then
      match matchSpacesParen (rest.drop m.length) with
      | some k => some (m, m.length + k)
      | none => tryMethods ms rest
    else tryMethods ms rest

/-- One `CALL_PATTERN` match attempt anchored at the head of `l`:
`some (m, len)` gives the matched method (regex group 1) and the total match
length. -/
def matchAt (l : List Char) : Option (List Char × Nat) :=
  if receiverDot.isPrefixOf l then
    (tryMethods methods (l.drop receiverDot.length)).map
      fun p => (p.1, receiverDot.length + p.2)
  else none

/-- `CALL_PATTERN.finditer(text)` scanning the suffix `l` whose first
character has absolute position `pos`: left-to-right, non-overlapping;
each entry is `(match start, method, match length)`.  A match consumes
`len ≥ 1` characters (every match ends with `'('`), so the scan resumes at
the match end: `(c :: rest).drop len = rest.drop (len - 1)`.  Recursion is
on `fuel`, a strict upper bound on the number of scan steps; each step
consumes at least one character, so `fuel = l.length` never runs out. -/
def findIterAux : Nat → List Char → Nat → List (Nat × List Char × Nat)
  | 0, _, _ => []
  | _ + 1, [], _ => []
  | fuel + 1, c :: rest, pos =>
    match matchAt (c :: rest) with
    | some (m, len) => (pos, m, len) :: findIterAux fuel (rest.drop (len - 1)) (pos + len)
    | none => findIterAux fuel rest (pos + 1)

/-- All `CALL_PATTERN` matches in `text`, in order of occurrence. -/
def findIter (text : List Char) : List (Nat × List Char × Nat) :=
  findIterAux text.length text 0

/-- The dataclass `Callsite`. -/
structure Callsite where
  file : String
  method : List Char
  line : Nat
  call_text : List Char
  has_operation_id : Bool
deriving DecidableEq, Repr

/-- The required marker, `operationID:`. -/
def opMarker : List Char := "operationID:".toList

/-- Python's substring test `needle in hay`. -/
def containsSub (needle hay : List Char) : Bool :=
  decide (needle <:+: hay)

/-- `text.find("(", start)` restricted to the suffix: index of the first
occurrence of `t` in `l`, if any. -/
def findFromAux : List Char → Char → Option Nat
  | [], _ => none
  | c :: rest, t => if c = t then some 0 else (findFromAux rest t).map (· + 1)

/-- `open_paren_index = text.find("(", match.start())`.  Python returns `-1`
when no `'('` follows; that branch is unreachable for positions produced by
the locator (every match ends with `'('`) and is modelled as `text.length`
(on which `parse_call` extracts the empty list). -/
def open_paren_index (text : List Char) (start : Nat) : Nat :=
  match findFromAux (text.drop start) '(' with
  | some j => start + j
  | none => text.length

/-- The body of the `for match in CALL_PATTERN.finditer(text)` loop of
`collect_calls`, building one `Callsite` from one locator entry
`(start, method, length)`. -/
def mkCallsite (file : String) (text : List Char) (e : Nat × List Char × Nat) : Callsite :=
  let openIdx := open_paren_index text e.1
  let call_text := (parse_call text openIdx).1
  { file := file
    method := e.2.1
    line := List.count '\n' (text.take e.1) + 1
    call_text := call_text
    has_operation_id := containsSub opMarker call_text }

/-- `collect_calls` on one file's text. -/
def collect_calls (file : String) (text : List Char) : List Callsite :=
  (findIter text).map (mkCallsite file text)

/-- `iter_swift_files`: `sorted(root.rglob("*.swift"))`; the traversal order
of `rglob` is the input order of `paths`, `sorted` is a stable sort by the
path's lexicographic order. -/
def iter_swift_files (paths : List String) : List String :=
  List.insertionSort (fun a b => a ≤ b) paths

/-- First element of Python `str.splitlines()`: `none` on the empty string
(where `[0]` would raise `IndexError`), otherwise the prefix before the
first line terminator. -/
def splitlinesFirst (l : List Char) : Option (List Char) :=
  if l.isEmpty then none
  else some (l.takeWhile fun c => !(c = '\n' || c = '\r' || c = '\x0b' || c = '\x0c'))

/-- Python `str.strip()`: drop leading and trailing whitespace. -/
def pystrip (l : List Char) : List Char :=
  ((l.dropWhile isSpaceChar).reverse.dropWhile isSpaceChar).reverse

/-- The status field of a report line. -/
def statusStr (c : Callsite) : String :=
  if c.has_operation_id then "OK" else "MISSING operationID"

/-- One report line
`f"{status}: {call.file}:{call.line} {call.method} {first_line}"`;
`none` exactly when `call.call_text.splitlines()[0]` would raise. -/
def report_line (c : Callsite) : Option String :=
  (splitlinesFirst c.call_text).map fun fl =>
    statusStr c ++ ": " ++ c.file ++ ":" ++ toString c.line ++ " " ++
      String.mk c.method ++ " " ++ String.mk (pystrip fl)

/-- Observable outcome of one run of `main`. -/
structure RunResult where
  exitCode : Nat
  stdout : List String
  stderr : List String
deriving DecidableEq, Repr

/-- The scan of `main`: all callsites over all discovered files, per file in
sorted discovery order, within a file in locator order. -/
def allCalls (paths : List String) (contents : String → List Char) : List Callsite :=
  (iter_swift_files paths).flatMap fun p => collect_calls p (contents p)

/-- `main` after argument parsing: `root` is the `--root` value, `rootExists`
models `root.exists()`, `paths`/`contents` model the filesystem under it.
`report_line` is `some` for every callsite the scan produces (each call text
starts with `'('`), so `filterMap` keeps one line per callsite; Python would
raise `IndexError` on an empty call text, which cannot occur. -/
def run (root : String) (rootExists : Bool) (paths : List String)
    (contents : String → List Char) : RunResult :=
  if rootExists = false then
    { exitCode := 2, stdout := [],
      stderr := ["error: root path does not exist: " ++ root] }
  else
    let all_calls := allCalls paths contents
    if all_calls.isEmpty then
      { exitCode := 0, stdout := ["No mountManager callsites found."], stderr := [] }
    else
      let missing := all_calls.filter fun c => !c.has_operation_id
      let report := all_calls.filterMap report_line
      if missing.isEmpty then
        { exitCode := 0,
          stdout := report ++
            ["\nPASS: " ++ toString all_calls.length ++
              " callsite(s) include explicit operationID."],
          stderr := [] }
      else
        { exitCode := 1, stdout := report,
          stderr := ["\nFAIL: " ++ toString missing.length ++
            " callsite(s) missing explicit operationID forwarding."] }

/-- A well-formed, balanced parenthesized expression: nonempty, net depth 0,
and every proper nonempty prefix has strictly positive depth (so the text
starts with `'('` and its closing parenthesis arrives only at the very
end — the first return of the depth counter to zero). -/
def Balanced (t : List Char) : Prop :=
  t.head? = some '(' ∧ depthSum t = 0 ∧ ∀ p ∈ t.inits, p ≠ [] → p ≠ t → 0 < depthSum p

instance (t : List Char) : Decidable (Balanced t) :=
  inferInstanceAs (Decidable (_ ∧ _ ∧ _))

/-! ### Lemmas about the depth counter and `parse_call` -/

theorem depthSum_cons (c : Char) (l : List Char) :
    depthSum (c :: l) = parenDelta c + depthSum l := by
  simp [depthSum]

theorem depthSum_append (l₁ l₂ : List Char) :
    depthSum (l₁ ++ l₂) = depthSum l₁ + depthSum l₂ := by
  simp [depthSum]

theorem parenDelta_open : parenDelta '(' = 1 := rfl

theorem parenDelta_close : parenDelta ')' = -1 := rfl

theorem parenDelta_other (c : Char) (h1 : c ≠ '(') (h2 : c ≠ ')') :
    parenDelta c = 0 := by
  simp [parenDelta, h1, h2]

/-- One unfolding step of the `parse_call` loop. -/
theorem parse_call_aux_cons (c : Char) (l : List Char) (d : Int) :
    parse_call_aux (c :: l) d =
      if c = '(' then c :: parse_call_aux l (d + 1)
      else if c = ')' then
        if d - 1 = 0 then [c] else c :: parse_call_aux l (d - 1)
      else c :: parse_call_aux l d := rfl

/-- The first component of `parse_call` is the loop run on the suffix. -/
theorem parse_call_fst (text : List Char) (start_idx : Nat) :
    (parse_call text start_idx).1 = parse_call_aux (text.drop start_idx) 0 := by
  by_cases h : (parse_call_aux (text.drop start_idx) 0).length = text.length - start_idx
  · simp [parse_call, h]
  · simp [parse_call, h]

/-- Core extraction lemma: if the depth counter enters at `d ≥ 1`, stays
strictly positive on every proper prefix of `l`, and returns to zero exactly
at the end of `l`, then the loop extracts exactly `l`, whatever follows. -/
theorem parse_call_aux_extract (l : List Char) (d : Int) (suffix : List Char)
    (hd : 1 ≤ d)
    (hpre : ∀ p, p <+: l → p ≠ [] → p ≠ l → 0 < d + depthSum p)
    (hend : d + depthSum l = 0) :
    parse_call_aux (l ++ suffix) d = l := by
  induction l generalizing d with
  | nil =>
    simp [depthSum] at hend
    omega
  | cons c l ih =>
    rw [depthSum_cons] at hend
    by_cases hc : c = '('
    · subst hc
      rw [List.cons_append, parse_call_aux_cons, if_pos rfl]
      rw [parenDelta_open] at hend
      have h := ih (d + 1) (by omega)
        (fun p hp hne hnl => by
          have := hpre ('(' :: p) (List.cons_prefix_cons.mpr ⟨rfl, hp⟩)
            (List.cons_ne_nil _ _) (by simpa using hnl)
          rw [depthSum_cons, parenDelta_open] at this
          omega)
        (by omega)
      rw [h]
    · by_cases hc2 : c = ')'
      · subst hc2
        rw [parenDelta_close] at hend
        rcases List.eq_nil_or_concat l with hl | _
        · subst hl
          simp [depthSum] at hend
          rw [List.cons_append, parse_call_aux_cons]
          rw [if_neg (by decide), if_pos (by decide), if_pos (by omega)]
        · have hlne : l ≠ [] := by
            rintro rfl
            simp_all
          have hone : 0 < d + depthSum [')'] := by
            refine hpre [')'] (List.cons_prefix_cons.mpr ⟨rfl, List.nil_prefix⟩)
              (List.cons_ne_nil _ _) ?_
            simp [hlne]
          rw [depthSum_cons, parenDelta_close] at hone
          simp [depthSum] at hone
          rw [List.cons_append, parse_call_aux_cons,
            if_neg (by decide), if_pos rfl, if_neg (by omega)]
          have h := ih (d - 1) (by omega)
            (fun p hp hne hnl => by
              have := hpre (')' :: p) (List.cons_prefix_cons.mpr ⟨rfl, hp⟩)
                (List.cons_ne_nil _ _) (by simpa using hnl)
              rw [depthSum_cons, parenDelta_close] at this
              omega)
            (by omega)
          rw [h]
      · rw [parenDelta_other c hc hc2] at hend
        rw [List.cons_append, parse_call_aux_cons, if_neg hc, if_neg hc2]
        have h := ih d hd
          (fun p hp hne hnl => by
            have := hpre (c :: p) (List.cons_prefix_cons.mpr ⟨rfl, hp⟩)
              (List.cons_ne_nil _ _) (by simpa using hnl)
            rw [depthSum_cons, parenDelta_other c hc hc2] at this
            omega)
          (by omega)
        rw [h]

/-- A `Balanced` segment placed at its own offset is extracted exactly. -/
theorem parse_call_extracts (pre t suffix : List Char) (h : Balanced t) :
    (parse_call (pre ++ t ++ suffix) pre.length).1 = t := by
  obtain ⟨hhead, hzero, hpre⟩ := h
  obtain ⟨t', rfl⟩ : ∃ t', t = '(' :: t' := by
    cases t with
    | nil => simp at hhead
    | cons a t' => exact ⟨t', by simp_all⟩
  have hdrop : (pre ++ ('(' :: t') ++ suffix).drop pre.length = ('(' :: t') ++ suffix := by
    rw [List.append_assoc, List.drop_left]
  rw [parse_call_fst, hdrop, List.cons_append, parse_call_aux_cons, if_pos rfl]
  rw [depthSum_cons, parenDelta_open] at hzero
  have h := parse_call_aux_extract t' (0 + 1) suffix (by omega)
    (fun p hp hne hnl => by
      have := hpre ('(' :: p) ((List.mem_inits _ _).mpr (List.cons_prefix_cons.mpr ⟨rfl, hp⟩))
        (List.cons_ne_nil _ _) (by simpa using hnl)
      rw [depthSum_cons, parenDelta_open] at this
      omega)
    (by omega)
  rw [h]

/-- Core degenerate-case lemma: if the depth counter never reaches zero at a
closing parenthesis, the loop copies the whole remaining text. -/
theorem parse_call_aux_runs_out (l : List Char) (d : Int)
    (h : ∀ q : List Char, q ++ [')'] <+: l → d + depthSum q - 1 ≠ 0) :
    parse_call_aux l d = l := by
  induction l generalizing d with
  | nil => rfl
  | cons c l ih =>
    by_cases hc : c = '('
    · subst hc
      rw [parse_call_aux_cons, if_pos rfl]
      have := ih (d + 1) (fun q hq => by
        have := h ('(' :: q) (by
          rw [List.cons_append]
          exact List.cons_prefix_cons.mpr ⟨rfl, hq⟩)
        rw [depthSum_cons, parenDelta_open] at this
        omega)
      rw [this]
    · by_cases hc2 : c = ')'
      · subst hc2
        have hne : d - 1 ≠ 0 := by
          have := h [] (by simp)
          simpa [depthSum] using this
        rw [parse_call_aux_cons, if_neg (by decide), if_pos rfl, if_neg hne]
        have := ih (d - 1) (fun q hq => by
          have := h (')' :: q) (by
            rw [List.cons_append]
            exact List.cons_prefix_cons.mpr ⟨rfl, hq⟩)
          rw [depthSum_cons, parenDelta_close] at this
          omega)
        rw [this]
      · rw [parse_call_aux_cons, if_neg hc, if_neg hc2]
        have := ih d (fun q hq => by
          have := h (c :: q) (by
            rw [List.cons_append]
            exact List.cons_prefix_cons.mpr ⟨rfl, hq⟩)
          rw [depthSum_cons, parenDelta_other c hc hc2] at this
          omega)
        rw [this]

/-! ### Lemmas about the locator pattern -/

theorem matchSpacesParen_some (l : List Char) (k : Nat)
    (h : matchSpacesParen l = some k) :
    ∃ ws rest, l = ws ++ '(' :: rest ∧ (∀ c ∈ ws, isSpaceChar c = true)
      ∧ k = ws.length + 1 := by
  induction l generalizing k with
  | nil => simp [matchSpacesParen] at h
  | cons c l ih =>
    unfold matchSpacesParen at h
    by_cases hc : c = '('
    · subst hc
      rw [if_pos rfl] at h
      exact ⟨[], l, rfl, by simp, by simpa using h.symm⟩
    · rw [if_neg hc] at h
      by_cases hs : isSpaceChar c
      · rw [if_pos hs] at h
        obtain ⟨k', hk', rfl⟩ := Option.map_eq_some'.mp h
        obtain ⟨ws, rest, rfl, hws, rfl⟩ := ih k' hk'
        refine ⟨c :: ws, rest, rfl, ?_, by simp⟩
        intro x hx
        rcases List.mem_cons.mp hx with rfl | hx
        · exact hs
        · exact hws x hx
      · rw [if_neg hs] at h
        cases h

theorem matchSpacesParen_of_spaces (ws rest : List Char)
    (h : ∀ c ∈ ws, isSpaceChar c = true) :
    matchSpacesParen (ws ++ '(' :: rest) = some (ws.length + 1) := by
  induction ws with
  | nil => rfl
  | cons c ws ih =>
    have hs : isSpaceChar c = true := h c (List.mem_cons_self c ws)
    have hc : c ≠ '(' := by
      intro e
      subst e
      simp [isSpaceChar] at hs
    rw [List.cons_append]
    unfold matchSpacesParen
    rw [if_neg hc, if_pos hs, ih (fun x hx => h x (List.mem_cons_of_mem c hx))]
    simp

theorem tryMethods_some (ms : List (List Char)) (rest m : List Char) (k : Nat)
    (h : tryMethods ms rest = some (m, k)) :
    m ∈ ms ∧ m <+: rest
      ∧ ∃ k', matchSpacesParen (rest.drop m.length) = some k' ∧ k = m.length + k' := by
  induction ms with
  | nil => simp [tryMethods] at h
  | cons m₀ ms ih =>
    unfold tryMethods at h
    by_cases hp : m₀.isPrefixOf rest
    · rw [if_pos hp] at h
      cases hm : matchSpacesParen (rest.drop m₀.length) with
      | some k' =>
        rw [hm] at h
        obtain ⟨rfl, rfl⟩ : m₀ = m ∧ m₀.length + k' = k := by
          simpa using h
        exact ⟨List.mem_cons_self _ _, List.isPrefixOf_iff_prefix.mp hp, k', hm, rfl⟩
      | none =>
        rw [hm] at h
        obtain ⟨h1, h2, h3⟩ := ih h
        exact ⟨List.mem_cons_of_mem _ h1, h2, h3⟩
    · rw [if_neg hp] at h
      obtain ⟨h1, h2, h3⟩ := ih h
      exact ⟨List.mem_cons_of_mem _ h1, h2, h3⟩

theorem tryMethods_isSome (ms : List (List Char)) (rest m : List Char)
    (hm : m ∈ ms) (hp : m.isPrefixOf rest = true)
    (hs : (matchSpacesParen (rest.drop m.length)).isSome = true) :
    (tryMethods ms rest).isSome = true := by
  induction ms with
  | nil => cases hm
  | cons m₀ ms ih =>
    unfold tryMethods
    by_cases hp0 : m₀.isPrefixOf rest
    · rw [if_pos hp0]
      cases h0 : matchSpacesParen (rest.drop m₀.length) with
      | some k => simp
      | none =>
        rcases List.mem_cons.mp hm with rfl | hm'
        · rw [h0] at hs
          cases hs
        · exact ih hm'
    · rw [if_neg hp0]
      rcases List.mem_cons.mp hm with rfl | hm'
      · exact absurd hp hp0
      · exact ih hm'

theorem matchAt_some (l m : List Char) (len : Nat)
    (h : matchAt l = some (m, len)) :
    m ∈ methods ∧ ∃ ws rest, l = receiverDot ++ m ++ ws ++ '(' :: rest
      ∧ (∀ c ∈ ws, isSpaceChar c = true)
      ∧ len = receiverDot.length + m.length + ws.length + 1 := by
  unfold matchAt at h
  by_cases hp : receiverDot.isPrefixOf l
  · rw [if_pos hp] at h
    obtain ⟨⟨m', k⟩, htry, heq⟩ := Option.map_eq_some'.mp h
    obtain ⟨rfl, rfl⟩ : m' = m ∧ receiverDot.length + k = len := by
      simpa using heq
    obtain ⟨hmem, hpre, k', hsp, rfl⟩ := tryMethods_some _ _ _ _ htry
    obtain ⟨t, rfl⟩ := List.isPrefixOf_iff_prefix.mp hp
    rw [List.drop_left] at hpre hsp
    obtain ⟨t₂, rfl⟩ := hpre
    rw [List.drop_left] at hsp
    obtain ⟨ws, rest, rfl, hws, rfl⟩ := matchSpacesParen_some _ _ hsp
    exact ⟨hmem, ws, rest, by simp, hws, by omega⟩
  · rw [if_neg hp] at h
    cases h

theorem matchAt_isSome_of (m ws rest : List Char)
    (hm : m ∈ methods) (hws : ∀ c ∈ ws, isSpaceChar c = true) :
    (matchAt (receiverDot ++ m ++ ws ++ '(' :: rest)).isSome = true := by
  unfold matchAt
  have hshape : receiverDot ++ m ++ ws ++ '(' :: rest
      = receiverDot ++ (m ++ (ws ++ '(' :: rest)) := by
    simp [List.append_assoc]
  rw [hshape]
  rw [if_pos (List.isPrefixOf_iff_prefix.mpr ⟨_, rfl⟩)]
  rw [List.drop_left]
  have h1 : (matchSpacesParen ((m ++ (ws ++ '(' :: rest)).drop m.length)).isSome = true := by
    rw [List.drop_left, matchSpacesParen_of_spaces ws rest hws]
    rfl
  have h2 := tryMethods_isSome methods (m ++ (ws ++ '(' :: rest)) m hm
    (List.isPrefixOf_iff_prefix.mpr ⟨_, rfl⟩) h1
  obtain ⟨p, hp⟩ := Option.isSome_iff_exists.mp h2
  rw [hp]
  rfl

theorem matchAt_len_pos (l m : List Char) (len : Nat)
    (h : matchAt l = some (m, len)) : 1 ≤ len := by
  obtain ⟨-, ws, rest, -, -, rfl⟩ := matchAt_some _ _ _ h
  omega

/-- Every located match ends with its opening parenthesis. -/
theorem matchAt_paren (l m : List Char) (len : Nat)
    (h : matchAt l = some (m, len)) : l[len - 1]? = some '(' := by
  obtain ⟨-, ws, rest, rfl, -, rfl⟩ := matchAt_some _ _ _ h
  have hlen : (receiverDot ++ m ++ ws).length
      = receiverDot.length + m.length + ws.length := by
    rw [List.length_append, List.length_append]
  rw [List.getElem?_append_right (by omega)]
  have hz : receiverDot.length + m.length + ws.length + 1 - 1
      - (receiverDot ++ m ++ ws).length = 0 := by
    omega
  rw [hz]
  simp

/-! ### Lemmas about the scan -/

/-- Every entry of the scan lies at or after the scan position, and is a
genuine `CALL_PATTERN` match at its own absolute position. -/
theorem findIterAux_mem (fuel : Nat) (l : List Char) (pos : Nat)
    (e : Nat × List Char × Nat) (h : e ∈ findIterAux fuel l pos) :
    pos ≤ e.1 ∧ matchAt (l.drop (e.1 - pos)) = some (e.2.1, e.2.2) := by
  induction fuel generalizing l pos with
  | zero => simp [findIterAux] at h
  | succ fuel ih =>
    cases l with
    | nil => simp [findIterAux] at h
    | cons c rest =>
      rw [findIterAux] at h
      cases hm : matchAt (c :: rest) with
      | some p =>
        obtain ⟨m, len⟩ := p
        rw [hm] at h
        rcases List.mem_cons.mp h with he | h'
        · subst he
          exact ⟨Nat.le_refl _, by simpa using hm⟩
        · obtain ⟨h1, h2⟩ := ih _ _ h'
          have hlen : 1 ≤ len := matchAt_len_pos _ _ _ hm
          refine ⟨by omega, ?_⟩
          rw [List.drop_drop] at h2
          have harith : e.1 - pos = (len - 1 + (e.1 - (pos + len))) + 1 := by
            omega
          rw [harith, List.drop_succ_cons]
          exact h2
      | none =>
        rw [hm] at h
        obtain ⟨h1, h2⟩ := ih _ _ h
        refine ⟨by omega, ?_⟩
        have harith : e.1 - pos = (e.1 - (pos + 1)) + 1 := by
          omega
        rw [harith, List.drop_succ_cons]
        exact h2

/-- Scan entries appear in strictly increasing position order. -/
theorem findIterAux_chain (fuel : Nat) (l : List Char) (pos : Nat) :
    List.Chain' (fun a b : Nat × List Char × Nat => a.1 < b.1)
      (findIterAux fuel l pos) := by
  induction fuel generalizing l pos with
  | zero => simp [findIterAux]
  | succ fuel ih =>
    cases l with
    | nil => simp [findIterAux]
    | cons c rest =>
      rw [findIterAux]
      cases hm : matchAt (c :: rest) with
      | some p =>
        obtain ⟨m, len⟩ := p
        refine List.chain'_cons'.mpr ⟨?_, ih _ _⟩
        intro y hy
        have h1 := (findIterAux_mem _ _ _ _ (List.mem_of_mem_head? hy)).1
        have hlen : 1 ≤ len := matchAt_len_pos _ _ _ hm
        show pos < y.1
        omega
      | none => exact ih _ _

theorem findIter_mem (text : List Char) (e : Nat × List Char × Nat)
    (h : e ∈ findIter text) :
    matchAt (text.drop e.1) = some (e.2.1, e.2.2) := by
  have := (findIterAux_mem text.length text 0 e h).2
  simpa using this

/-! ### Lemmas about `find` and the produced callsites -/

theorem findFromAux_isSome (l : List Char) (t : Char) (h : t ∈ l) :
    (findFromAux l t).isSome = true := by
  induction l with
  | nil => cases h
  | cons c l ih =>
    unfold findFromAux
    by_cases hc : c = t
    · rw [if_pos hc]
      rfl
    · rw [if_neg hc]
      rcases List.mem_cons.mp h with he | h'
      · exact absurd he.symm hc
      · obtain ⟨j, hj⟩ := Option.isSome_iff_exists.mp (ih h')
        rw [hj]
        rfl

theorem findFromAux_getElem (l : List Char) (t : Char) (j : Nat)
    (h : findFromAux l t = some j) : l[j]? = some t := by
  induction l generalizing j with
  | nil => cases h
  | cons c l ih =>
    unfold findFromAux at h
    by_cases hc : c = t
    · rw [if_pos hc] at h
      obtain rfl : j = 0 := by simpa using h.symm
      simpa using hc
    · rw [if_neg hc] at h
      obtain ⟨j', hj', rfl⟩ := Option.map_eq_some'.mp h
      simpa using ih j' hj'

/-- Shared helper: every callsite the scan produces has a call text that
starts with the located opening parenthesis. -/
theorem collect_calls_call_text_head (file : String) (text : List Char)
    (c : Callsite) (h : c ∈ collect_calls file text) :
    c.call_text.head? = some '(' := by
  obtain ⟨e, he, rfl⟩ := List.mem_map.mp h
  have hmatch := findIter_mem text e he
  obtain ⟨-, ws, rest, hsplit, -, hlen⟩ := matchAt_some _ _ _ hmatch
  have hparen : '(' ∈ text.drop e.1 := by
    rw [hsplit]
    simp
  obtain ⟨j, hj⟩ := Option.isSome_iff_exists.mp (findFromAux_isSome _ _ hparen)
  have hopen : open_paren_index text e.1 = e.1 + j := by
    unfold open_paren_index
    rw [hj]
  have hget : text[e.1 + j]? = some '(' := by
    rw [← List.getElem?_drop]
    exact findFromAux_getElem _ _ _ hj
  obtain ⟨hlt, hgetel⟩ := List.getElem?_eq_some.mp hget
  have hd : text.drop (e.1 + j) = '(' :: text.drop (e.1 + j + 1) := by
    rw [List.drop_eq_getElem_cons hlt, hgetel]
  show ((parse_call text (open_paren_index text e.1)).1).head? = some '('
  rw [hopen, parse_call_fst, hd, parse_call_aux_cons, if_pos rfl]
  rfl

/-- Shared helper: the reporter's line is defined for every callsite whose
call text starts with `'('`. -/
theorem report_line_isSome (c : Callsite) (h : c.call_text.head? = some '(') :
    (report_line c).isSome = true := by
  unfold report_line splitlinesFirst
  cases hct : c.call_text with
  | nil => rw [hct] at h; cases h
  | cons a l => simp

theorem allCalls_call_text_head (paths : List String)
    (contents : String → List Char) (c : Callsite)
    (h : c ∈ allCalls paths contents) : c.call_text.head? = some '(' := by
  unfold allCalls at h
  obtain ⟨p, _, hc⟩ := List.mem_flatMap.mp h
  exact collect_calls_call_text_head _ _ _ hc

/-- Shared helper: `filterMap` over an all-`some` function keeps the length. -/
theorem length_filterMap_of_isSome {α β : Type} (f : α → Option β) (l : List α)
    (h : ∀ a ∈ l, (f a).isSome = true) :
    (l.filterMap f).length = l.length := by
  induction l with
  | nil => rfl
  | cons a l ih =>
    rw [List.filterMap_cons]
    cases hf : f a with
    | none =>
      have := h a (List.mem_cons_self a l)
      rw [hf] at this
      cases this
    | some b =>
      simp only [List.length_cons]
      rw [ih (fun x hx => h x (List.mem_cons_of_mem a hx))]

/-! ### Claim theorems -/

/-- C1: given a text and the offset of an opening parenthesis whose matching
closing parenthesis (the first return of the depth counter to zero after
being incremented) closes a balanced segment `t`, `parse_call` returns
exactly `t`; in particular a well-formed balanced parenthesized expression
round-trips when extracted at the offset of its first character. -/
theorem C1_extractor_balanced_roundtrip :
    (∀ pre t suffix : List Char, Balanced t →
        (parse_call (pre ++ t ++ suffix) pre.length).1 = t)
      ∧ ∀ t : List Char, Balanced t → (parse_call t 0).1 = t := by
  refine ⟨parse_call_extracts, ?_⟩
  intro t h
  have := parse_call_extracts [] t [] h
  simpa using this

/-- C1 witness: a concrete balanced call text, embedded in context and
standalone. -/
theorem C1_witness :
    Balanced "(a, (b), c)".toList
      ∧ (parse_call ("x = ".toList ++ "(a, (b), c)".toList ++ ";".toList)
          ("x = ".toList).length).1 = "(a, (b), c)".toList
      ∧ (parse_call "(a, (b), c)".toList 0).1 = "(a, (b), c)".toList :=
  ⟨by decide, C1_extractor_balanced_roundtrip.1 _ _ _ (by decide),
    C1_extractor_balanced_roundtrip.2 _ (by decide)⟩

/-- C2 counterexample: the call text `(operationID:operationID: x)` contains
the marker, and removing one occurrence of the marker substring — leaving the
rest unchanged — gives `(operationID: x)`, on which the checker still
returns `true`, not `false` as the claim demands. -/
theorem C2_counterexample :
    containsSub opMarker "(operationID:operationID: x)".toList = true
      ∧ containsSub opMarker "(operationID: x)".toList = true := by
  exact ⟨by decide, by decide⟩

/-- C2 (amended): a produced callsite's compliance flag is exactly the
case-sensitive substring test for the marker; a call text containing the
marker checks true; removing the marker substring yields false provided no
occurrence of the marker remains in what is left. -/
theorem C2_compliance_flag :
    (∀ (file : String) (text : List Char) (c : Callsite),
        c ∈ collect_calls file text →
          (c.has_operation_id = true ↔ opMarker <:+: c.call_text))
      ∧ (∀ pre post : List Char,
          containsSub opMarker (pre ++ opMarker ++ post) = true)
      ∧ ∀ pre post : List Char, ¬ opMarker <:+: pre ++ post →
          containsSub opMarker (pre ++ post) = false := by
  refine ⟨?_, ?_, ?_⟩
  · intro file text c h
    obtain ⟨e, he, rfl⟩ := List.mem_map.mp h
    show containsSub opMarker _ = true ↔ _
    simp only [containsSub, decide_eq_true_eq]
    exact Iff.rfl
  · intro pre post
    exact decide_eq_true ⟨pre, post, by simp⟩
  · intro pre post h
    exact decide_eq_false h

/-- C2 witness: the flag-iff-marker fact at a concrete scanned callsite, and
a marker-free call text checking false. -/
theorem C2_witness :
    ((⟨"a.swift", "connect".toList, 1, "(a)".toList, false⟩ : Callsite).has_operation_id = true
        ↔ opMarker <:+:
          (⟨"a.swift", "connect".toList, 1, "(a)".toList, false⟩ : Callsite).call_text)
      ∧ containsSub opMarker ("(a, ".toList ++ ")".toList) = false :=
  ⟨C2_compliance_flag.1 "a.swift" "mountManager.connect(a)".toList _ (by decide),
    C2_compliance_flag.2.2 "(a, ".toList ")".toList (by decide)⟩

/-- C7: at the offset of an opening parenthesis from which the depth counter
never returns to zero, `parse_call` returns the suffix up to end-of-text with
end index `len(text)`, raising no error; and every located match still yields
exactly one Callsite (degenerate call text is never dropped). -/
theorem C7_degenerate_to_end :
    (∀ (text : List Char) (start : Nat),
        text[start]? = some '(' →
        (∀ p ∈ (text.drop start).inits, p ≠ [] → depthSum p ≠ 0) →
        (parse_call text start).1 = text.drop start
          ∧ (parse_call text start).2 = text.length)
      ∧ ∀ (file : String) (text : List Char),
          (collect_calls file text).length = (findIter text).length := by
  refine ⟨?_, fun file text => List.length_map _ _⟩
  intro text start hstart h
  have haux : parse_call_aux (text.drop start) 0 = text.drop start := by
    apply parse_call_aux_runs_out
    intro q hq
    have hne : q ++ [')'] ≠ [] := by simp
    have hval := h (q ++ [')']) ((List.mem_inits _ _).mpr hq) hne
    rw [depthSum_append] at hval
    have h2 : depthSum [')'] = -1 := by decide
    rw [h2] at hval
    omega
  constructor
  · rw [parse_call_fst, haux]
  · simp [parse_call, haux]

/-- C7 witness: an unclosed call at a concrete offset. -/
theorem C7_witness :
    (parse_call "x(a(b".toList 1).1 = "x(a(b".toList.drop 1
      ∧ (parse_call "x(a(b".toList 1).2 = "x(a(b".toList.length :=
  C7_degenerate_to_end.1 "x(a(b".toList 1 (by decide) (by decide)

/-- C9: the pipeline is deterministic: over the same unchanged tree (same
read function, same set of discovered files in any enumeration order) two
runs produce identical output and exit code. -/
theorem C9_deterministic :
    ∀ (root : String) (re : Bool) (paths₁ paths₂ : List String)
      (contents : String → List Char), paths₁.Perm paths₂ →
      run root re paths₁ contents = run root re paths₂ contents := by
  intro root re paths₁ paths₂ contents hperm
  have hsort : iter_swift_files paths₁ = iter_swift_files paths₂ := by
    apply List.eq_of_perm_of_sorted
      ((List.perm_insertionSort _ _).trans (hperm.trans (List.perm_insertionSort _ _).symm))
      (List.sorted_insertionSort _ _) (List.sorted_insertionSort _ _)
  unfold run allCalls
  rw [hsort]

/-- C9 witness: the same tree enumerated in two orders. -/
theorem C9_witness :
    run "r" true ["b.swift", "a.swift"] (fun _ => "mountManager.connect(x)".toList)
      = run "r" true ["a.swift", "b.swift"] (fun _ => "mountManager.connect(x)".toList) :=
  C9_deterministic "r" true _ _ _ (List.Perm.swap _ _ _)

/-- C10: every Callsite produced by the scan has a non-empty call text whose
first character is the located opening parenthesis, so the reporter's
single-line preview is always defined. -/
theorem C10_preview_welldefined :
    ∀ (file : String) (text : List Char) (c : Callsite),
      c ∈ collect_calls file text →
      c.call_text ≠ [] ∧ c.call_text.head? = some '('
        ∧ (report_line c).isSome = true := by
  intro file text c h
  have hh := collect_calls_call_text_head file text c h
  refine ⟨?_, hh, report_line_isSome c hh⟩
  intro hnil
  rw [hnil] at hh
  cases hh

/-- C10 witness: a concrete scanned callsite. -/
theorem C10_witness :
    (⟨"a.swift", "connect".toList, 1, "(x)".toList, false⟩ : Callsite).call_text ≠ []
      ∧ (⟨"a.swift", "connect".toList, 1, "(x)".toList, false⟩ : Callsite).call_text.head?
          = some '('
      ∧ (report_line ⟨"a.swift", "connect".toList, 1, "(x)".toList, false⟩).isSome = true :=
  C10_preview_welldefined "a.swift" "mountManager.connect(x)".toList _ (by decide)

/-- C3: a missing root aborts at once with exit code 2 (regardless of any
file content, so before any scanning); no callsites yields the distinct
notice and exit 0; any non-compliant callsite yields exit 1; all compliant
yields exit 0. -/
theorem C3_exit_codes :
    (∀ (root : String) (paths : List String) (contents : String → List Char),
        run root false paths contents =
          ⟨2, [], ["error: root path does not exist: " ++ root]⟩)
      ∧ (∀ (root : String) (paths : List String) (contents : String → List Char),
          allCalls paths contents = [] →
          run root true paths contents =
            ⟨0, ["No mountManager callsites found."], []⟩)
      ∧ (∀ (root : String) (paths : List String) (contents : String → List Char)
          (c : Callsite), c ∈ allCalls paths contents →
          c.has_operation_id = false → (run root true paths contents).exitCode = 1)
      ∧ ∀ (root : String) (paths : List String) (contents : String → List Char),
          (∀ c ∈ allCalls paths contents, c.has_operation_id = true) →
          (run root true paths contents).exitCode = 0 := by
  refine ⟨fun root paths contents => rfl, ?_, ?_, ?_⟩
  · intro root paths contents h
    simp [run, h]
  · intro root paths contents c hc hnc
    have hne : allCalls paths contents ≠ [] := List.ne_nil_of_mem hc
    have hmem : c ∈ (allCalls paths contents).filter (fun c => !c.has_operation_id) :=
      List.mem_filter.mpr ⟨hc, by simp [hnc]⟩
    have hmne : (allCalls paths contents).filter (fun c => !c.has_operation_id) ≠ [] :=
      List.ne_nil_of_mem hmem
    simp [run, List.isEmpty_iff, hne, hmne]
  · intro root paths contents h
    by_cases hall : allCalls paths contents = []
    · simp [run, hall]
    · have hm : (allCalls paths contents).filter (fun c => !c.has_operation_id) = [] :=
        List.filter_eq_nil_iff.mpr (fun a ha => by simp [h a ha])
      simp [run, List.isEmpty_iff, hall, hm]

/-- C3 witness: the four outcomes on concrete trees. -/
theorem C3_witness :
    (run "r" false ["a.swift"] (fun _ => "mountManager.connect(x)".toList) =
        ⟨2, [], ["error: root path does not exist: r"]⟩)
      ∧ run "r" true [] (fun _ => []) = ⟨0, ["No mountManager callsites found."], []⟩
      ∧ (run "r" true ["a.swift"] (fun _ => "mountManager.connect(x)".toList)).exitCode = 1
      ∧ (run "r" true ["a.swift"]
          (fun _ => "mountManager.connect(operationID: i)".toList)).exitCode = 0 :=
  ⟨C3_exit_codes.1 "r" _ _,
    C3_exit_codes.2.1 "r" [] _ (by decide),
    C3_exit_codes.2.2.1 "r" ["a.swift"] _
      ⟨"a.swift", "connect".toList, 1, "(x)".toList, false⟩ (by decide) (by decide),
    C3_exit_codes.2.2.2 "r" ["a.swift"] _ (by decide)⟩

/-- C4: a produced callsite's line number is 1 plus the newline count
strictly before the match start; the pattern may span line boundaries; a
multiline call reports the line of the method-name token, not of the
`operationID:` argument. -/
theorem C4_line_numbers :
    (∀ (file : String) (text : List Char) (i : Nat) (c : Callsite)
        (e : Nat × List Char × Nat),
        (collect_calls file text)[i]? = some c → (findIter text)[i]? = some e →
        c.line = List.count '\n' (text.take e.1) + 1)
      ∧ collect_calls "f.swift"
          "let a = 1\nlet b = 2\nmountManager.disconnect(\n    mountID,\n    operationID: opID\n)\n".toList
        = [⟨"f.swift", "disconnect".toList, 3,
            "(\n    mountID,\n    operationID: opID\n)".toList, true⟩]
      ∧ collect_calls "g.swift" "mountManager.connect\n(x)".toList
        = [⟨"g.swift", "connect".toList, 1, "(x)".toList, false⟩] := by
  refine ⟨?_, by decide, by decide⟩
  intro file text i c e hc he
  unfold collect_calls at hc
  rw [List.getElem?_map, he] at hc
  obtain rfl : mkCallsite file text e = c := by simpa using hc
  rfl

/-- C4 witness: the multiline example at index 0. -/
theorem C4_witness :
    (⟨"f.swift", "disconnect".toList, 3,
        "(\n    mountID,\n    operationID: opID\n)".toList, true⟩ : Callsite).line
      = List.count '\n'
          (("let a = 1\nlet b = 2\nmountManager.disconnect(\n    mountID,\n    operationID: opID\n)\n".toList).take 20)
        + 1 :=
  C4_line_numbers.1 "f.swift"
    "let a = 1\nlet b = 2\nmountManager.disconnect(\n    mountID,\n    operationID: opID\n)\n".toList
    0 _ (20, "disconnect".toList, 24) (by decide) (by decide)

/-- C5: a watched method name occurring only inside a longer identifier
after the receiver-and-dot prefix never matches: the two spec examples
produce no match, and in any match the character right after the method
name is whitespace or the opening parenthesis, never an identifier
character. -/
theorem C5_no_substring_match :
    findIter "mountManager.reconnectAll(x)".toList = []
      ∧ findIter "mountManager.connectAll(x)".toList = []
      ∧ ∀ (l m : List Char) (len : Nat), matchAt l = some (m, len) →
          ∃ c, (l.drop (receiverDot.length + m.length)).head? = some c
            ∧ (c = '(' ∨ isSpaceChar c = true) := by
  refine ⟨by decide, by decide, ?_⟩
  intro l m len h
  obtain ⟨-, ws, rest, rfl, hws, -⟩ := matchAt_some _ _ _ h
  have hdrop : (receiverDot ++ m ++ ws ++ '(' :: rest).drop
      (receiverDot.length + m.length) = ws ++ '(' :: rest := by
    have hshape : receiverDot ++ m ++ ws ++ '(' :: rest
        = (receiverDot ++ m) ++ (ws ++ '(' :: rest) := by
      simp
    rw [hshape, ← List.length_append, List.drop_left]
  rw [hdrop]
  cases ws with
  | nil => exact ⟨'(', by simp, Or.inl rfl⟩
  | cons w ws' =>
    exact ⟨w, by simp, Or.inr (hws w (List.mem_cons_self _ _))⟩

/-- C5 witness: a genuine match is followed by whitespace after the method
name. -/
theorem C5_witness :
    ∃ c, (("mountManager.connect (x)".toList).drop
        (receiverDot.length + ("connect".toList).length)).head? = some c
      ∧ (c = '(' ∨ isSpaceChar c = true) :=
  C5_no_substring_match.2.2 "mountManager.connect (x)".toList "connect".toList 22
    (by decide)

/-- C6 counterexample: the receiver occurring as the trailing part of the
longer identifier `xmountManager` still produces a match (the pattern has no
left word boundary), contradicting the claim that such occurrences never
match. -/
theorem C6_counterexample :
    findIter "xmountManager.connect(x)".toList = [(1, "connect".toList, 21)] := by
  decide

/-- C6 (amended): the locator fires exactly at case-sensitive literal
occurrences of receiver-dot + watched method + optional whitespace + an
opening parenthesis; there is no left word-boundary check, so an identifier
ending in the exact receiver text does match, while
`myMountManager.connect(x)` produces no match only because its embedded
receiver text differs in case. -/
theorem C6_literal_match :
    findIter "myMountManager.connect(x)".toList = []
      ∧ ∀ l : List Char, (matchAt l).isSome = true ↔
          ∃ m ws rest, m ∈ methods ∧ (∀ c ∈ ws, isSpaceChar c = true)
            ∧ l = receiverDot ++ m ++ ws ++ '(' :: rest := by
  refine ⟨by decide, ?_⟩
  intro l
  constructor
  · intro h
    obtain ⟨⟨m, len⟩, hm⟩ := Option.isSome_iff_exists.mp h
    obtain ⟨hmem, ws, rest, rfl, hws, -⟩ := matchAt_some _ _ _ hm
    exact ⟨m, ws, rest, hmem, hws, rfl⟩
  · rintro ⟨m, ws, rest, hmem, hws, rfl⟩
    exact matchAt_isSome_of m ws rest hmem hws

/-- C6 witness: the literal-occurrence characterization instantiated at a
concrete match. -/
theorem C6_witness :
    (matchAt "mountManager.refreshStatus (x)".toList).isSome = true :=
  (C6_literal_match.2 _).mpr
    ⟨"refreshStatus".toList, [' '], "x)".toList, by decide, by decide, by decide⟩

/-- C8: discovery is the sorted enumeration (a permutation of the found
paths in lexicographic order); within a file the locator reports strictly
increasing positions; the report section has one line for every callsite of
the complete scan; and the verdict is a function of the complete callsite
list (no early abort). -/
theorem C8_full_scan_ordered :
    (∀ paths : List String,
        List.Sorted (fun a b : String => a ≤ b) (iter_swift_files paths)
          ∧ (iter_swift_files paths).Perm paths)
      ∧ (∀ text : List Char,
          List.Chain' (fun a b : Nat × List Char × Nat => a.1 < b.1) (findIter text))
      ∧ (∀ (root : String) (paths : List String) (contents : String → List Char),
          allCalls paths contents ≠ [] →
          ∃ rest, (run root true paths contents).stdout
              = (allCalls paths contents).filterMap report_line ++ rest
            ∧ ((allCalls paths contents).filterMap report_line).length
              = (allCalls paths contents).length)
      ∧ ∀ (root : String) (paths : List String) (contents : String → List Char),
          (run root true paths contents).exitCode
            = if (allCalls paths contents).all (fun c => c.has_operation_id)
              then 0 else 1 := by
  refine ⟨fun paths => ⟨List.sorted_insertionSort _ _, List.perm_insertionSort _ _⟩,
    fun text => findIterAux_chain _ _ _, ?_, ?_⟩
  · intro root paths contents h
    have hsome : ∀ c ∈ allCalls paths contents, (report_line c).isSome = true :=
      fun c hc => report_line_isSome c (allCalls_call_text_head _ _ _ hc)
    have hlen := length_filterMap_of_isSome _ _ hsome
    by_cases hm : ((allCalls paths contents).filter fun c => !c.has_operation_id) = []
    · refine ⟨["\nPASS: " ++ toString (allCalls paths contents).length ++
        " callsite(s) include explicit operationID."], ?_, hlen⟩
      simp [run, List.isEmpty_iff, h, hm]
    · refine ⟨[], ?_, hlen⟩
      simp [run, List.isEmpty_iff, h, hm]
  · intro root paths contents
    by_cases hall : allCalls paths contents = []
    · simp [run, hall]
    · by_cases hm : ((allCalls paths contents).filter fun c => !c.has_operation_id) = []
      · have hb : (allCalls paths contents).all (fun c => c.has_operation_id) = true := by
          rw [List.all_eq_true]
          intro x hx
          have := List.filter_eq_nil_iff.mp hm x hx
          simpa using this
        simp [run, List.isEmpty_iff, hall, hm, hb]
      · obtain ⟨x, hx⟩ := List.exists_mem_of_ne_nil _ hm
        obtain ⟨hx1, hx2⟩ := List.mem_filter.mp hx
        have hb : (allCalls paths contents).all (fun c => c.has_operation_id) = false := by
          rcases Bool.eq_false_or_eq_true ((allCalls paths contents).all
            fun c => c.has_operation_id) with ht | hf
          · have := List.all_eq_true.mp ht x hx1
            rw [this] at hx2
            cases hx2
          · exact hf
        simp [run, List.isEmpty_iff, hall, hm, hb]

/-- C8 witness: the complete-report property on a concrete two-call tree. -/
theorem C8_witness :
    ∃ rest,
      (run "r" true ["a.swift"]
          (fun _ => "mountManager.connect(x)\nmountManager.disconnect(y, operationID: i)".toList)).stdout
        = ((allCalls ["a.swift"]
            (fun _ => "mountManager.connect(x)\nmountManager.disconnect(y, operationID: i)".toList)).filterMap
              report_line) ++ rest
      ∧ ((allCalls ["a.swift"]
          (fun _ => "mountManager.connect(x)\nmountManager.disconnect(y, operationID: i)".toList)).filterMap
            report_line).length
        = (allCalls ["a.swift"]
            (fun _ => "mountManager.connect(x)\nmountManager.disconnect(y, operationID: i)".toList)).length :=
  C8_full_scan_ordered.2.2.1 "r" ["a.swift"] _ (by decide)

end Audit
